import Mathlib

/-!
# Verification of the atomic-ingestor core against its specification

This file gives a shallow embedding, in Lean 4, of the core components of the
atomic-ingestor repository (completion-detecting watcher, content-addressed
dedup store, atomic mover, manifest writer, and the per-file processor), and
proves or refutes the frozen claims about them.

Conventions of the embedding:
* Go maps (`sync.Map`, the set of files on disk, the record table) are modelled
  as association lists with explicit `storeKV` / `lookupKV` / `deleteKV`.
* Wall-clock times (`time.Time`) are natural numbers counting nanoseconds;
  `time.Duration(n) * time.Second` is `n * 1000000000`.
* Fallible externals (database I/O, mkdir, rename, …) are modelled with
  explicit injected outcomes, so every failure path of the Go code is reachable
  in the model.
-/

namespace AtomicIngestor

/-! ## Association-list maps (model of Go maps and `sync.Map`) -/

/-- Lookup in an association list (first match wins). -/
def lookupKV {α : Type} : List (String × α) → String → Option α
  | [], _ => none
  | (k, v) :: rest, q => if k = q then some v else lookupKV rest q

/-- `Store`: insert or overwrite the binding for `k` (model of `sync.Map.Store`
and of overwriting file creation). -/
def storeKV {α : Type} : List (String × α) → String → α → List (String × α)
  | [], k, v => [(k, v)]
  | (k', v') :: rest, k, v =>
      if k' = k then (k, v) :: rest else (k', v') :: storeKV rest k v

/-- `Delete`: remove the binding for `k` (model of `sync.Map.Delete` and of
file removal). -/
def deleteKV {α : Type} : List (String × α) → String → List (String × α)
  | [], _ => []
  | (k', v') :: rest, k =>
      if k' = k then deleteKV rest k else (k', v') :: deleteKV rest k

theorem lookupKV_storeKV {α : Type} (m : List (String × α)) (k q : String) (v : α) :
    lookupKV (storeKV m k v) q = if k = q then some v else lookupKV m q := by
  induction m with
  | nil => simp [storeKV, lookupKV]
  | cons hd tl ih =>
      obtain ⟨k', v'⟩ := hd
      by_cases hk : k' = k
      · subst hk
        by_cases hq : k' = q <;> simp [storeKV, lookupKV, hq]
      · by_cases hq : k' = q
        · subst hq
          simp [storeKV, lookupKV, hk, Ne.symm hk]
        · simp [storeKV, lookupKV, hk, hq, ih]

theorem lookupKV_deleteKV {α : Type} (m : List (String × α)) (k q : String) :
    lookupKV (deleteKV m k) q = if k = q then none else lookupKV m q := by
  induction m with
  | nil => simp [deleteKV, lookupKV]
  | cons hd tl ih =>
      obtain ⟨k', v'⟩ := hd
      by_cases hk : k' = k
      · subst hk
        by_cases hq : k' = q
        · subst hq
          simp [deleteKV, lookupKV, ih]
        · simp [deleteKV, lookupKV, hq, ih]
      · by_cases hkq : k' = q
        · subst hkq
          have hne : ¬k = k' := fun h => hk h.symm
          simp [deleteKV, lookupKV, hk, hne]
        · simp [deleteKV, lookupKV, hk, hkq, ih]

theorem mem_keysOf_storeKV {α : Type} (m : List (String × α)) (k q : String) (v : α) :
    q ∈ (storeKV m k v).map Prod.fst ↔ q ∈ m.map Prod.fst ∨ q = k := by
  induction m with
  | nil => simp [storeKV]
  | cons hd tl ih =>
      obtain ⟨k', v'⟩ := hd
      by_cases hk : k' = k
      · subst hk
        constructor
        · intro h
          rcases (by simpa [storeKV] using h : q = k' ∨ q ∈ tl.map Prod.fst) with h | h
          · exact Or.inr h
          · exact Or.inl (by simp [h])
        · intro h
          rcases h with h | h
          · rcases (by simpa using h : q = k' ∨ q ∈ tl.map Prod.fst) with h | h
            · simp [storeKV, h]
            · simp [storeKV, h]
          · simp [storeKV, h]
      · constructor
        · intro h
          rcases (by simpa [storeKV, hk] using h :
              q = k' ∨ q ∈ (storeKV tl k v).map Prod.fst) with h | h
          · exact Or.inl (by simp [h])
          · rcases ih.mp h with h2 | h2
            · exact Or.inl (by simp only [List.map_cons, List.mem_cons]; exact Or.inr h2)
            · exact Or.inr h2
        · intro h
          have : q = k' ∨ (q ∈ tl.map Prod.fst ∨ q = k) := by
            rcases h with h | h
            · rcases (by simpa using h : q = k' ∨ q ∈ tl.map Prod.fst) with h | h
              · exact Or.inl h
              · exact Or.inr (Or.inl h)
            · exact Or.inr (Or.inr h)
          rcases this with h2 | h2
          · simp [storeKV, hk, h2]
          · have := ih.mpr h2
            simp [storeKV, hk, this]

/-- Keys of an association list. -/
def keysOf {α : Type} (m : List (String × α)) : List String := m.map Prod.fst

theorem keysOf_storeKV_nodup {α : Type} (m : List (String × α)) (k : String) (v : α)
    (h : (keysOf m).Nodup) : (keysOf (storeKV m k v)).Nodup := by
  induction m with
  | nil => simp [storeKV, keysOf]
  | cons hd tl ih =>
      obtain ⟨k', v'⟩ := hd
      simp only [keysOf, List.map_cons, List.nodup_cons] at h
      by_cases hk : k' = k
      · subst hk
        have hst : storeKV ((k', v') :: tl) k' v = (k', v) :: tl := by
          simp [storeKV]
        rw [hst]
        simp only [keysOf, List.map_cons, List.nodup_cons]
        exact h
      · have htl := ih h.2
        have hmem : k' ∉ (storeKV tl k v).map Prod.fst := by
          intro hmem
          rcases (mem_keysOf_storeKV tl k k' v).mp hmem with h2 | h2
          · exact h.1 h2
          · exact hk h2
        simp only [storeKV, if_neg hk, keysOf, List.map_cons, List.nodup_cons]
        exact ⟨hmem, htl⟩

theorem mem_lookupKV {α : Type} {m : List (String × α)} {p : String} {v : α}
    (h : (keysOf m).Nodup) : (p, v) ∈ m ↔ lookupKV m p = some v := by
  induction m with
  | nil => simp [lookupKV]
  | cons hd tl ih =>
      obtain ⟨k', v'⟩ := hd
      simp only [keysOf, List.map_cons, List.nodup_cons] at h
      by_cases hk : k' = p
      · subst hk
        simp only [lookupKV, if_pos rfl]
        constructor
        · intro hmem
          rcases List.mem_cons.mp hmem with heq | hmem
          · have : v = v' := (Prod.mk.injEq _ _ _ _ ▸ heq).2
            simp [this]
          · exact absurd (by simpa [keysOf] using List.mem_map_of_mem Prod.fst hmem) h.1
        · intro hl
          have : v' = v := by simpa using hl
          simp [this]
      · constructor
        · intro hmem
          rcases List.mem_cons.mp hmem with heq | hmem
          · exact absurd ((Prod.mk.injEq _ _ _ _ ▸ heq).1.symm) hk
          · simpa [lookupKV, hk] using (ih h.2).mp hmem
        · intro hl
          simp only [lookupKV, hk, if_false] at hl
          exact List.mem_cons_of_mem _ ((ih h.2).mpr hl)

/-! ## String helpers (models of Go `strings` and `path/filepath` functions) -/

/-- Strip `pat` from the front of `l`, or fail. -/
def stripPre : List Char → List Char → Option (List Char)
  | [], l => some l
  | _ :: _, [] => none
  | p :: ps, c :: cs => if p = c then stripPre ps cs else none

theorem stripPre_eq {pat l r : List Char} (h : stripPre pat l = some r) :
    l = pat ++ r := by
  induction pat generalizing l with
  | nil =>
      simp only [stripPre, Option.some.injEq] at h
      simp [h]
  | cons p ps ih =>
      cases l with
      | nil => simp [stripPre] at h
      | cons c cs =>
          by_cases hp : p = c
          · subst hp
            simp only [stripPre, if_pos rfl] at h
            simpa using ih h
          · simp [stripPre, hp] at h

/-- Strip the suffix `suf` from `s`, or fail. -/
def sufDrop (s suf : List Char) : Option (List Char) :=
  (stripPre suf.reverse s.reverse).map List.reverse

theorem sufDrop_eq {s suf r : List Char} (h : sufDrop s suf = some r) :
    s = r ++ suf := by
  simp only [sufDrop, Option.map_eq_some'] at h
  obtain ⟨r', hr', hrev⟩ := h
  have h1 : s.reverse = suf.reverse ++ r' := stripPre_eq hr'
  have h2 : s = r'.reverse ++ suf := by
    have := congrArg List.reverse h1
    simpa [List.reverse_append] using this
  rw [h2, hrev]

/-- Model of Go `strings.HasSuffix`. -/
def strHasSuffix (s suf : String) : Bool := (sufDrop s.data suf.data).isSome

/-- Model of Go `strings.TrimSuffix`: drop the suffix when present, otherwise
return the string unchanged. -/
def trimSuffixStr (s suf : String) : String :=
  match sufDrop s.data suf.data with
  | some r => ⟨r⟩
  | none => s

theorem trimSuffixStr_append {s suf : String} (h : strHasSuffix s suf = true) :
    trimSuffixStr s suf ++ suf = s := by
  unfold strHasSuffix at h
  unfold trimSuffixStr
  cases hd : sufDrop s.data suf.data with
  | none => simp [hd] at h
  | some r =>
      have : s.data = r ++ suf.data := sufDrop_eq hd
      apply String.ext
      simpa [String.append, String.ext_iff] using this.symm

theorem trimSuffixStr_ne {s : String} (h : strHasSuffix s ".ok" = true) :
    trimSuffixStr s ".ok" ≠ s := by
  unfold strHasSuffix at h
  unfold trimSuffixStr
  cases hd : sufDrop s.data ".ok".data with
  | none => simp [hd] at h
  | some r =>
      have hs : s.data = r ++ ".ok".data := sufDrop_eq hd
      intro hcontra
      have : r = s.data := by simpa [String.ext_iff] using hcontra
      subst this
      have := congrArg List.length hs
      simp at this

/-- Drop all trailing `'/'` characters. -/
def dropTrailingSlashes (l : List Char) : List Char :=
  (l.reverse.dropWhile (fun c => c = '/')).reverse

/-- Characters after the last `'/'`. -/
def afterLastSlash (l : List Char) : List Char :=
  (l.reverse.takeWhile (fun c => c ≠ '/')).reverse

/-- Model of Go `filepath.Base` (volume names are not modelled: paths are
slash-separated as on the target platform). -/
def goBase (p : String) : String :=
  if p = "" then "."
  else
    let l := dropTrailingSlashes p.data
    if l = [] then "/"
    else ⟨afterLastSlash l⟩

/-- Model of Go `filepath.Join` on two components, restricted to already-clean
components (no `.`/`..` segments, no redundant slashes), which is the only way
the repository calls it. -/
def goJoin (a b : String) : String :=
  if a = "" then b
  else if b = "" then a
  else a ++ "/" ++ b

/-- Model of Go `filepath.Rel`, restricted to the case where `target` lies
strictly under `base` (or equals it); other inputs are treated as failure.
The processor only calls `Rel` with paths under the watched root, where this
agrees with Go (which would otherwise compute `..`-relative paths). -/
def goRel (base target : String) : Option String :=
  if base = target then some "."
  else if (base ++ "/").data.isPrefixOf target.data then
    some ⟨target.data.drop (base.data.length + 1)⟩
  else none

/-- Model of Go `filepath.Dir`, restricted to clean slash-separated paths. -/
def dirOfPath (p : String) : String :=
  let l := p.data
  let pre := (l.reverse.dropWhile (fun c => c ≠ '/')).reverse
  if pre = [] then "."
  else
    let pre' := dropTrailingSlashes pre
    if pre' = [] then "/" else ⟨pre'⟩

theorem strData_append (a b : String) : (a ++ b).data = a.data ++ b.data := rfl

theorem stripPre_append (x y : List Char) : stripPre x (x ++ y) = some y := by
  induction x with
  | nil => simp [stripPre]
  | cons c cs ih => simp [stripPre, ih]

theorem sufDrop_append (p suf : List Char) : sufDrop (p ++ suf) suf = some p := by
  simp [sufDrop, List.reverse_append, stripPre_append]

theorem strHasSuffix_append (p suf : String) : strHasSuffix (p ++ suf) suf = true := by
  simp [strHasSuffix, strData_append, sufDrop_append]

theorem trimSuffixStr_of_append (p suf : String) : trimSuffixStr (p ++ suf) suf = p := by
  unfold trimSuffixStr
  rw [strData_append, sufDrop_append]

/-! ## Completion Detector (`internal/watcher/watcher.go`)

The watcher consumes fsnotify events.  An `Event` carries the fields the Go
code reads (`Name`, whether the op has the `Create` / `Write` bits, and the
arrival time `time.Now()` observed by the event loop), plus the on-disk size
and modification time of the named file at the moment the event fired.  The
latter two are *not* delivered by fsnotify and are never read by the code
(which does not stat the file); they are carried only so that the
specification's stability condition can be stated and compared. -/

structure Event where
  name : String
  create : Bool
  write : Bool
  /-- `time.Now()` when the event loop handles the event, in nanoseconds. -/
  time : Nat
  /-- On-disk size of the file when the event fired (never read by the code). -/
  size : Nat
  /-- On-disk mtime of the file when the event fired (never read by the code). -/
  mtime : Nat
deriving DecidableEq, Repr

/-- Temporary/incomplete-file suffixes (`tempFileSuffixes` in watcher.go). -/
def tempFileSuffixes : List String :=
  [".tmp", ".part", ".swp", ".crdownload", ".partial", ".download", "~"]

/-- `shouldIgnoreFile`: hidden files (base name starting with `.`) and
temporary-suffix files are ignored. -/
def shouldIgnoreFile (path : String) : Bool :=
  let name := goBase path
  (".".data.isPrefixOf name.data) || tempFileSuffixes.any (fun suf => strHasSuffix name suf)

/-- The watcher state: `modification` is non-nil exactly in stability-window
mode, `completed` non-nil exactly in sidecar mode (see `New`). -/
structure Watcher where
  method : String
  watchPath : String
  stabilitySeconds : Nat
  modification : Option (List (String × Nat))
  completed : Option (List (String × Bool))
deriving DecidableEq, Repr

/-- `watcher.New` (the fsnotify subscription itself is not modelled). -/
def Watcher.new (method watchPath : String) (stabilitySeconds : Nat) : Except String Watcher :=
  if method = "stability_window" then
    .ok ⟨method, watchPath, stabilitySeconds, some [], none⟩
  else if method = "sidecar" then
    .ok ⟨method, watchPath, stabilitySeconds, none, some []⟩
  else .error ("unknown watch method: " ++ method)

/-- One iteration of `eventLoop` on an event (the `Errors` channel and logging
have no state effect and are not modelled). -/
def handleEvent (w : Watcher) (e : Event) : Watcher :=
  if w.completed.isSome && strHasSuffix e.name ".ok" then
    if e.create then
      { w with completed := w.completed.map (fun m => storeKV m (trimSuffixStr e.name ".ok") true) }
    else w
  else if shouldIgnoreFile e.name then w
  else if e.create || e.write then
    match w.modification with
    | some m => { w with modification := some (storeKV m e.name e.time) }
    | none => w
  else w

/-- `RemoveFromTracking`. -/
def RemoveFromTracking (w : Watcher) (path : String) : Watcher :=
  { w with
    completed := w.completed.map (fun m => deleteKV m path),
    modification := w.modification.map (fun m => deleteKV m path) }

/-- Run the event loop over a list of events. -/
def runEvents (w : Watcher) (evs : List Event) : Watcher := evs.foldl handleEvent w

/-- A step of the watcher's lifetime: either an observed fs event or an
`RemoveFromTracking` call by the processor. -/
inductive WStep where
  | ev (e : Event)
  | untrack (p : String)
deriving DecidableEq, Repr

def runStep (w : Watcher) : WStep → Watcher
  | .ev e => handleEvent w e
  | .untrack p => RemoveFromTracking w p

def runSteps (w : Watcher) (l : List WStep) : Watcher := l.foldl runStep w

def nsPerSecond : Nat := 1000000000

/-- `GetFilesToProcess`, queried at wall-clock time `now` (ns):
stability-window entries whose stored timestamp plus the window lies strictly
before `now`, then sidecar entries marked complete. -/
def GetFilesToProcess (w : Watcher) (now : Nat) : List String :=
  (match w.modification with
   | some m =>
       (m.filter (fun kv => decide (kv.2 + w.stabilitySeconds * nsPerSecond < now))).map Prod.fst
   | none => []) ++
  (match w.completed with
   | some m => (m.filter (fun kv => kv.2)).map Prod.fst
   | none => [])

/-- A stability-window watcher with tracking map `m`. -/
def stabW (secs : Nat) (m : List (String × Nat)) : Watcher :=
  ⟨"stability_window", "files", secs, some m, none⟩

/-- A sidecar watcher with completion map `m` (the stability window is unused
in this mode). -/
def sideW (m : List (String × Bool)) : Watcher :=
  ⟨"sidecar", "files", 0, none, some m⟩

/-- Condition under which the event loop stores into `modification`
(stability mode): a candidate name with a create or write bit. -/
def stabStoreCond (e : Event) : Bool :=
  !shouldIgnoreFile e.name && (e.create || e.write)

/-- Condition under which the event loop stores into `completed`
(sidecar mode): a create event on a `.ok` sidecar. -/
def sideStoreCond (e : Event) : Bool :=
  strHasSuffix e.name ".ok" && e.create

theorem handleEvent_stab (secs : Nat) (m : List (String × Nat)) (e : Event) :
    handleEvent (stabW secs m) e =
      stabW secs (if stabStoreCond e then storeKV m e.name e.time else m) := by
  by_cases hig : shouldIgnoreFile e.name
  · simp [handleEvent, stabW, stabStoreCond, hig]
  · by_cases hcw : (e.create || e.write)
    · simp [handleEvent, stabW, stabStoreCond, hig, hcw]
    · simp [handleEvent, stabW, stabStoreCond, hig, hcw]

theorem handleEvent_side (m : List (String × Bool)) (e : Event) :
    handleEvent (sideW m) e =
      sideW (if sideStoreCond e then storeKV m (trimSuffixStr e.name ".ok") true else m) := by
  by_cases hok : strHasSuffix e.name ".ok"
  · by_cases hc : e.create
    · simp [handleEvent, sideW, sideStoreCond, hok, hc]
    · simp [handleEvent, sideW, sideStoreCond, hok, hc]
  · by_cases hig : shouldIgnoreFile e.name
    · simp [handleEvent, sideW, sideStoreCond, hok, hig]
    · by_cases hcw : (e.create || e.write)
      · simp [handleEvent, sideW, sideStoreCond, hok, hig, hcw]
      · simp [handleEvent, sideW, sideStoreCond, hok, hig, hcw]

/-- The tracking-map evolution in stability mode. -/
def stabFold (m : List (String × Nat)) (evs : List Event) : List (String × Nat) :=
  evs.foldl (fun m e => if stabStoreCond e then storeKV m e.name e.time else m) m

/-- The completion-map evolution in sidecar mode. -/
def sideFold (m : List (String × Bool)) (evs : List Event) : List (String × Bool) :=
  evs.foldl
    (fun m e => if sideStoreCond e then storeKV m (trimSuffixStr e.name ".ok") true else m) m

theorem runEvents_stab (secs : Nat) (m : List (String × Nat)) (evs : List Event) :
    runEvents (stabW secs m) evs = stabW secs (stabFold m evs) := by
  induction evs generalizing m with
  | nil => rfl
  | cons e rest ih =>
      show runEvents (handleEvent (stabW secs m) e) rest = _
      rw [handleEvent_stab, ih]
      rfl

theorem runEvents_side (m : List (String × Bool)) (evs : List Event) :
    runEvents (sideW m) evs = sideW (sideFold m evs) := by
  induction evs generalizing m with
  | nil => rfl
  | cons e rest ih =>
      show runEvents (handleEvent (sideW m) e) rest = _
      rw [handleEvent_side, ih]
      rfl

/-- Time of the last create/write event for candidate path `p` in the trace,
starting from accumulator `acc` (the value the event loop has stored). -/
def lastWriteAux (acc : Option Nat) (evs : List Event) (p : String) : Option Nat :=
  evs.foldl (fun acc e => if stabStoreCond e && e.name == p then some e.time else acc) acc

def lastWriteTime (evs : List Event) (p : String) : Option Nat :=
  lastWriteAux none evs p

theorem lookupKV_stabFold (m : List (String × Nat)) (evs : List Event) (p : String) :
    lookupKV (stabFold m evs) p = lastWriteAux (lookupKV m p) evs p := by
  induction evs generalizing m with
  | nil => rfl
  | cons e rest ih =>
      show lookupKV (stabFold (if stabStoreCond e then storeKV m e.name e.time else m) rest) p = _
      by_cases hc : stabStoreCond e
      · by_cases hn : e.name = p
        · rw [if_pos hc, ih]
          have : lookupKV (storeKV m e.name e.time) p = some e.time := by
            rw [lookupKV_storeKV, if_pos hn]
          rw [this]
          show _ = lastWriteAux (if stabStoreCond e && e.name == p then some e.time
            else lookupKV m p) rest p
          simp [hc, hn]
        · rw [if_pos hc, ih]
          have : lookupKV (storeKV m e.name e.time) p = lookupKV m p := by
            rw [lookupKV_storeKV, if_neg hn]
          rw [this]
          show _ = lastWriteAux (if stabStoreCond e && e.name == p then some e.time
            else lookupKV m p) rest p
          simp [hn]
      · rw [if_neg hc, ih]
        show _ = lastWriteAux (if stabStoreCond e && e.name == p then some e.time
          else lookupKV m p) rest p
        simp [hc]

theorem stabFold_nodup (m : List (String × Nat)) (evs : List Event)
    (h : (keysOf m).Nodup) : (keysOf (stabFold m evs)).Nodup := by
  induction evs generalizing m with
  | nil => exact h
  | cons e rest ih =>
      show (keysOf (stabFold (if stabStoreCond e then storeKV m e.name e.time else m) rest)).Nodup
      by_cases hc : stabStoreCond e
      · rw [if_pos hc]
        exact ih _ (keysOf_storeKV_nodup m e.name e.time h)
      · rw [if_neg hc]
        exact ih _ h

theorem sideFold_nodup (m : List (String × Bool)) (evs : List Event)
    (h : (keysOf m).Nodup) : (keysOf (sideFold m evs)).Nodup := by
  induction evs generalizing m with
  | nil => exact h
  | cons e rest ih =>
      show (keysOf (sideFold (if sideStoreCond e then
        storeKV m (trimSuffixStr e.name ".ok") true else m) rest)).Nodup
      by_cases hc : sideStoreCond e
      · rw [if_pos hc]
        exact ih _ (keysOf_storeKV_nodup m _ true h)
      · rw [if_neg hc]
        exact ih _ h

theorem lookupKV_sideFold_true (m : List (String × Bool)) (evs : List Event) (p : String) :
    lookupKV (sideFold m evs) p = some true ↔
      (∃ e ∈ evs, sideStoreCond e = true ∧ trimSuffixStr e.name ".ok" = p) ∨
        lookupKV m p = some true := by
  induction evs generalizing m with
  | nil => simp [sideFold]
  | cons e rest ih =>
      show lookupKV (sideFold (if sideStoreCond e then
        storeKV m (trimSuffixStr e.name ".ok") true else m) rest) p = some true ↔ _
      by_cases hc : sideStoreCond e
      · rw [if_pos hc, ih]
        by_cases hp : trimSuffixStr e.name ".ok" = p
        · have : lookupKV (storeKV m (trimSuffixStr e.name ".ok") true) p = some true := by
            rw [lookupKV_storeKV, if_pos hp]
          rw [this]
          constructor
          · intro _
            exact Or.inl ⟨e, List.mem_cons_self e rest, hc, hp⟩
          · intro _
            exact Or.inr rfl
        · have : lookupKV (storeKV m (trimSuffixStr e.name ".ok") true) p = lookupKV m p := by
            rw [lookupKV_storeKV, if_neg hp]
          rw [this]
          constructor
          · rintro (⟨e', he', hc', hp'⟩ | hm)
            · exact Or.inl ⟨e', List.mem_cons_of_mem e he', hc', hp'⟩
            · exact Or.inr hm
          · rintro (⟨e', he', hc', hp'⟩ | hm)
            · rcases List.mem_cons.mp he' with heq | he'
              · exact absurd (heq ▸ hp') hp
              · exact Or.inl ⟨e', he', hc', hp'⟩
            · exact Or.inr hm
      · rw [if_neg hc, ih]
        constructor
        · rintro (⟨e', he', hc', hp'⟩ | hm)
          · exact Or.inl ⟨e', List.mem_cons_of_mem e he', hc', hp'⟩
          · exact Or.inr hm
        · rintro (⟨e', he', hc', hp'⟩ | hm)
          · rcases List.mem_cons.mp he' with heq | he'
            · exact absurd (heq ▸ hc') (by simpa using hc)
            · exact Or.inl ⟨e', he', hc', hp'⟩
          · exact Or.inr hm

theorem mem_GetFiles_stabW (secs : Nat) (m : List (String × Nat)) (now : Nat) (p : String)
    (h : (keysOf m).Nodup) :
    p ∈ GetFilesToProcess (stabW secs m) now ↔
      ∃ t, lookupKV m p = some t ∧ t + secs * nsPerSecond < now := by
  simp only [GetFilesToProcess, stabW, List.append_nil, List.mem_map, List.mem_filter]
  constructor
  · rintro ⟨⟨q, t⟩, ⟨hmem, hlt⟩, hfst⟩
    cases hfst
    exact ⟨t, (mem_lookupKV h).mp hmem, by simpa using hlt⟩
  · rintro ⟨t, hl, hlt⟩
    exact ⟨(p, t), ⟨(mem_lookupKV h).mpr hl, by simpa using hlt⟩, rfl⟩

theorem mem_GetFiles_sideW (m : List (String × Bool)) (now : Nat) (p : String)
    (h : (keysOf m).Nodup) :
    p ∈ GetFilesToProcess (sideW m) now ↔ lookupKV m p = some true := by
  simp only [GetFilesToProcess, sideW, List.nil_append, List.mem_map, List.mem_filter]
  constructor
  · rintro ⟨⟨q, b⟩, ⟨hmem, hb⟩, hfst⟩
    cases hfst
    have : b = true := by simpa using hb
    exact (mem_lookupKV h).mp (this ▸ hmem)
  · intro hl
    exact ⟨(p, true), ⟨(mem_lookupKV h).mpr hl, rfl⟩, rfl⟩

/-- Exact characterization of the ready set in stability-window mode, from a
fresh watcher: a path is ready at `now` iff the last create/write event for it
happened more than the window before `now`. -/
theorem stab_ready_iff (secs : Nat) (evs : List Event) (p : String) (now : Nat) :
    p ∈ GetFilesToProcess (runEvents (stabW secs []) evs) now ↔
      ∃ t, lastWriteTime evs p = some t ∧ t + secs * nsPerSecond < now := by
  rw [runEvents_stab]
  rw [mem_GetFiles_stabW _ _ _ _ (stabFold_nodup [] evs (by simp [keysOf]))]
  rw [lookupKV_stabFold]
  rfl

/-- Exact characterization of the ready set in sidecar mode, from a fresh
watcher: a path is ready iff a create event for its `.ok` sidecar occurred. -/
theorem side_ready_iff (evs : List Event) (p : String) (now : Nat) :
    p ∈ GetFilesToProcess (runEvents (sideW []) evs) now ↔
      ∃ e ∈ evs, e.create = true ∧ e.name = p ++ ".ok" := by
  rw [runEvents_side]
  rw [mem_GetFiles_sideW _ _ _ (sideFold_nodup [] evs (by simp [keysOf]))]
  rw [lookupKV_sideFold_true]
  have hnone : lookupKV ([] : List (String × Bool)) p = none := rfl
  rw [hnone]
  constructor
  · rintro (⟨e, he, hc, hp⟩ | hfalse)
    · have hsuf : strHasSuffix e.name ".ok" = true :=
        ((Bool.and_eq_true _ _).mp hc).1
      have hcreate : e.create = true :=
        ((Bool.and_eq_true _ _).mp hc).2
      refine ⟨e, he, hcreate, ?_⟩
      rw [← hp]
      exact (trimSuffixStr_append hsuf).symm
    · exact absurd hfalse (by simp)
  · rintro ⟨e, he, hcreate, hname⟩
    have hsuf : strHasSuffix e.name ".ok" = true := by
      rw [hname]; exact strHasSuffix_append p ".ok"
    refine Or.inl ⟨e, he, ?_, ?_⟩
    · exact (Bool.and_eq_true _ _).mpr ⟨hsuf, hcreate⟩
    · rw [hname]; exact trimSuffixStr_of_append p ".ok"

/-! ### Reachable tracking states: event/untrack step traces -/

def stabStepF (m : List (String × Nat)) : WStep → List (String × Nat)
  | .ev e => if stabStoreCond e then storeKV m e.name e.time else m
  | .untrack p => deleteKV m p

def stabStepFold (m : List (String × Nat)) (l : List WStep) : List (String × Nat) :=
  l.foldl stabStepF m

def sideStepF (m : List (String × Bool)) : WStep → List (String × Bool)
  | .ev e => if sideStoreCond e then storeKV m (trimSuffixStr e.name ".ok") true else m
  | .untrack p => deleteKV m p

def sideStepFold (m : List (String × Bool)) (l : List WStep) : List (String × Bool) :=
  l.foldl sideStepF m

theorem runStep_stab (secs : Nat) (m : List (String × Nat)) (s : WStep) :
    runStep (stabW secs m) s = stabW secs (stabStepF m s) := by
  cases s with
  | ev e => exact handleEvent_stab secs m e
  | untrack p => simp [runStep, RemoveFromTracking, stabW, stabStepF]

theorem runStep_side (m : List (String × Bool)) (s : WStep) :
    runStep (sideW m) s = sideW (sideStepF m s) := by
  cases s with
  | ev e => exact handleEvent_side m e
  | untrack p => simp [runStep, RemoveFromTracking, sideW, sideStepF]

theorem runSteps_stab (secs : Nat) (m : List (String × Nat)) (l : List WStep) :
    runSteps (stabW secs m) l = stabW secs (stabStepFold m l) := by
  induction l generalizing m with
  | nil => rfl
  | cons s rest ih =>
      show runSteps (runStep (stabW secs m) s) rest = _
      rw [runStep_stab, ih]
      rfl

theorem runSteps_side (m : List (String × Bool)) (l : List WStep) :
    runSteps (sideW m) l = sideW (sideStepFold m l) := by
  induction l generalizing m with
  | nil => rfl
  | cons s rest ih =>
      show runSteps (runStep (sideW m) s) rest = _
      rw [runStep_side, ih]
      rfl

theorem keysOf_deleteKV_subset {α : Type} (m : List (String × α)) (k q : String)
    (h : q ∈ keysOf (deleteKV m k)) : q ∈ keysOf m := by
  induction m with
  | nil => simp [deleteKV, keysOf] at h
  | cons hd tl ih =>
      obtain ⟨k', v'⟩ := hd
      by_cases hk : k' = k
      · simp only [deleteKV, if_pos hk] at h
        exact List.mem_cons_of_mem _ (ih h)
      · rcases (by simpa [deleteKV, hk, keysOf] using h : q = k' ∨ q ∈ keysOf (deleteKV tl k))
          with h2 | h2
        · simp [keysOf, h2]
        · exact List.mem_cons_of_mem _ (ih h2)

theorem stabStoreCond_not_ignored {e : Event} (h : stabStoreCond e = true) :
    shouldIgnoreFile e.name = false := by
  have := ((Bool.and_eq_true _ _).mp h).1
  simpa using this

theorem stabStepFold_keys (l : List WStep) (m : List (String × Nat)) (q : String)
    (hm : ∀ r ∈ keysOf m, shouldIgnoreFile r = false)
    (hq : q ∈ keysOf (stabStepFold m l)) : shouldIgnoreFile q = false := by
  induction l generalizing m with
  | nil => exact hm q hq
  | cons s rest ih =>
      refine ih (stabStepF m s) ?_ hq
      intro r hr
      cases s with
      | ev e =>
          by_cases hc : stabStoreCond e
          · simp only [stabStepF, if_pos hc] at hr
            rcases (mem_keysOf_storeKV m e.name r e.time).mp hr with h2 | h2
            · exact hm r h2
            · exact h2 ▸ stabStoreCond_not_ignored hc
          · simp only [stabStepF, if_neg hc] at hr
            exact hm r hr
      | untrack p => exact hm r (keysOf_deleteKV_subset m p r hr)

theorem sideStepFold_from_event (l : List WStep) (m : List (String × Bool)) (q : String)
    (hq : q ∈ keysOf (sideStepFold m l)) :
    q ∈ keysOf m ∨
      ∃ e, WStep.ev e ∈ l ∧ sideStoreCond e = true ∧ trimSuffixStr e.name ".ok" = q := by
  induction l generalizing m with
  | nil => exact Or.inl hq
  | cons s rest ih =>
      rcases ih (sideStepF m s) hq with h2 | ⟨e, he, hc, hp⟩
      · cases s with
        | ev e =>
            by_cases hc : sideStoreCond e
            · simp only [sideStepF, if_pos hc] at h2
              rcases (mem_keysOf_storeKV m _ q true).mp h2 with h3 | h3
              · exact Or.inl h3
              · exact Or.inr ⟨e, List.mem_cons_self _ _, hc, h3.symm⟩
            · simp only [sideStepF, if_neg hc] at h2
              exact Or.inl h2
        | untrack p => exact Or.inl (keysOf_deleteKV_subset m p q h2)
      · exact Or.inr ⟨e, List.mem_cons_of_mem s he, hc, hp⟩

theorem mem_GetFiles_stabW_keys (secs : Nat) (m : List (String × Nat)) (now : Nat)
    (p : String) (h : p ∈ GetFilesToProcess (stabW secs m) now) : p ∈ keysOf m := by
  simp only [GetFilesToProcess, stabW, List.append_nil, List.mem_map, List.mem_filter] at h
  obtain ⟨kv, ⟨hmem, _⟩, hfst⟩ := h
  exact hfst ▸ List.mem_map_of_mem Prod.fst hmem

theorem mem_GetFiles_sideW_keys (m : List (String × Bool)) (now : Nat)
    (p : String) (h : p ∈ GetFilesToProcess (sideW m) now) : p ∈ keysOf m := by
  simp only [GetFilesToProcess, sideW, List.nil_append, List.mem_map, List.mem_filter] at h
  obtain ⟨kv, ⟨hmem, _⟩, hfst⟩ := h
  exact hfst ▸ List.mem_map_of_mem Prod.fst hmem

/-! ### The specification's stability condition, for comparison

`specStep`/`specLastChange` follow the specification's words, not the code:
on every create/write event for a candidate path, the current size and
modification time are recorded; the "last change" is the latest such event at
which the recorded size/mtime pair differed from the previously recorded one,
and the path is ready once more than the window has elapsed since it. -/

def specStep (p : String) (acc : Option (Nat × Nat) × Option Nat) (e : Event) :
    Option (Nat × Nat) × Option Nat :=
  if stabStoreCond e && e.name == p then
    match acc.1 with
    | none => (some (e.size, e.mtime), some e.time)
    | some sm =>
        if sm ≠ (e.size, e.mtime) then (some (e.size, e.mtime), some e.time)
        else acc
  else acc

def specLastChange (evs : List Event) (p : String) : Option Nat :=
  (evs.foldl (specStep p) (none, none)).2

def specStabilityReady (evs : List Event) (p : String) (secs now : Nat) : Prop :=
  ∃ t, specLastChange evs p = some t ∧ t + secs * nsPerSecond < now

/-- The trace's event-arrival times are non-decreasing and bounded below by
`t0` (true of `time.Now()` samples taken in order). -/
def chronFromB : Nat → List Event → Bool
  | _, [] => true
  | t, e :: rest => decide (t ≤ e.time) && chronFromB e.time rest

/-- Relation between the spec fold accumulator and the code fold accumulator:
both empty, or both set with the spec's last-change time at most the code's
last-event time, itself at most `lo`. -/
def SpecCodeRel (lo : Nat) (accS : Option (Nat × Nat) × Option Nat)
    (accC : Option Nat) : Prop :=
  (accS = (none, none) ∧ accC = none) ∨
    (∃ sm cs tc, accS.1 = some sm ∧ accS.2 = some cs ∧ accC = some tc ∧
      cs ≤ tc ∧ tc ≤ lo)

theorem spec_le_code_aux (p : String) :
    ∀ (evs : List Event) (lo : Nat) (accS : Option (Nat × Nat) × Option Nat)
      (accC : Option Nat),
      chronFromB lo evs = true →
      SpecCodeRel lo accS accC →
      ∀ tc, lastWriteAux accC evs p = some tc →
        ∃ cs ≤ tc, (evs.foldl (specStep p) accS).2 = some cs := by
  intro evs
  induction evs with
  | nil =>
      intro lo accS accC _ hrel tc hc
      rcases hrel with ⟨hS, hC⟩ | ⟨sm, cs, tc', h1, h2, h3, h4, _⟩
      · rw [hC] at hc
        exact absurd hc (by simp [lastWriteAux])
      · rw [h3] at hc
        have : tc' = tc := by simpa [lastWriteAux] using hc
        exact ⟨cs, this ▸ h4, h2⟩
  | cons e rest ih =>
      intro lo accS accC hchron hrel tc hc
      have hch : lo ≤ e.time ∧ chronFromB e.time rest = true := by
        have := (Bool.and_eq_true _ _).mp hchron
        exact ⟨by simpa using this.1, this.2⟩
      have hC0 : lastWriteAux accC (e :: rest) p =
          lastWriteAux (if stabStoreCond e && e.name == p then some e.time else accC)
            rest p := rfl
      by_cases hcond : (stabStoreCond e && e.name == p) = true
      · -- the event is a candidate create/write event for p: the code stores
        -- e.time and the spec records (size, mtime), resetting on change
        rw [hC0, if_pos hcond] at hc
        have hS' : (e :: rest).foldl (specStep p) accS =
            rest.foldl (specStep p) (specStep p accS e) := rfl
        rw [hS']
        refine ih e.time (specStep p accS e) (some e.time) hch.2 ?_ tc hc
        rcases hrel with ⟨hS, hC⟩ | ⟨sm, cs, tc', h1, h2, h3, h4, h5⟩
        · rw [hS]
          refine Or.inr ⟨(e.size, e.mtime), e.time, e.time, ?_, ?_, rfl, le_refl _, le_refl _⟩
          · simp [specStep, hcond]
          · simp [specStep, hcond]
        · by_cases hne : sm ≠ (e.size, e.mtime)
          · refine Or.inr ⟨(e.size, e.mtime), e.time, e.time, ?_, ?_, rfl, le_refl _, le_refl _⟩
            · simp [specStep, hcond, h1, hne]
            · simp [specStep, hcond, h1, hne]
          · refine Or.inr ⟨sm, cs, e.time, ?_, ?_, rfl, ?_, le_refl _⟩
            · simp [specStep, hcond, h1, hne]
            · simp [specStep, hcond, h1, hne, h2]
            · exact le_trans h4 (le_trans h5 hch.1)
      · rw [hC0, if_neg hcond] at hc
        have hstep : specStep p accS e = accS := by
          unfold specStep
          rw [if_neg hcond]
        have hS' : (e :: rest).foldl (specStep p) accS =
            rest.foldl (specStep p) accS := by
          show rest.foldl (specStep p) (specStep p accS e) = _
          rw [hstep]
        rw [hS']
        refine ih e.time accS accC hch.2 ?_ tc hc
        rcases hrel with ⟨hS, hC⟩ | ⟨sm, cs, tc', h1, h2, h3, h4, h5⟩
        · exact Or.inl ⟨hS, hC⟩
        · exact Or.inr ⟨sm, cs, tc', h1, h2, h3, h4, le_trans h5 hch.1⟩

/-- Under a chronological trace, the spec's last-change time never exceeds the
code's last-event time. -/
theorem specLastChange_le (evs : List Event) (p : String)
    (hchron : chronFromB 0 evs = true) (t : Nat)
    (h : lastWriteTime evs p = some t) :
    ∃ c ≤ t, specLastChange evs p = some c := by
  exact spec_le_code_aux p evs 0 (none, none) none hchron (Or.inl ⟨rfl, rfl⟩) t h

/-! ## Atomic Mover (`internal/fileops/fileops.go`) -/

/-- File contents as a byte list. -/
abbrev Content := List Nat

/-- The file system as path → contents.  Every entry is a regular file;
directories and special files are not modelled (the mover is only handed
regular files it statted, and `MkdirAll` is tracked separately where a claim
needs it). -/
abbrev FS := List (String × Content)

/-- Injected outcomes for the fallible syscalls inside `MoveFile`:
which step, if any, fails on this call. -/
structure MoveFaults where
  /-- `os.Rename(src, dst)` fails (typically EXDEV across filesystems). -/
  renameFails : Bool
  /-- the fallback copy (`copyFileContents`) fails mid-way. -/
  copyErr : Bool
  /-- the rename of the temporary file onto `dst` fails. -/
  rename2Err : Bool
  /-- the final `os.Remove(src)` fails. -/
  removeErr : Bool
deriving DecidableEq, Repr

def noMoveFaults : MoveFaults := ⟨false, false, false, false⟩

/-- `MoveFile`: try an atomic rename; on failure fall back to copying to
`dst + ".tmp"`, syncing, renaming the temp file onto `dst`, and removing
`src`.  Returns the result together with the file system as left on disk
(failures can leave effects, e.g. the copy already renamed into place when
only the source removal failed).  `out.Sync()` inside `copyFileContents` has
no effect on this state model and is noted in the claim text. -/
def MoveFile (mf : MoveFaults) (fs : FS) (src dst : String) :
    Except String Unit × FS :=
  match lookupKV fs src with
  | none => (.error "stat source", fs)
  | some content =>
      if !mf.renameFails then
        (.ok (), storeKV (deleteKV fs src) dst content)
      else
        let tmpDst := dst ++ ".tmp"
        if mf.copyErr then
          -- the partial temp file is removed best-effort; src untouched
          (.error "copy file contents", deleteKV fs tmpDst)
        else
          let fs1 := storeKV fs tmpDst content
          if mf.rename2Err then
            (.error "rename temp to destination", deleteKV fs1 tmpDst)
          else
            let fs2 := storeKV (deleteKV fs1 tmpDst) dst content
            if mf.removeErr then
              (.error "remove source after copy (destination is safe)", fs2)
            else
              (.ok (), deleteKV fs2 src)

/-! ## Durable Dedup Store (`internal/storage/storage.go`) -/

/-- A calendar timestamp (`time.Time`), restricted to whole seconds in UTC,
matching how the repository renders timestamps it stores. -/
structure GoTime where
  year : Nat
  month : Nat
  day : Nat
  hour : Nat
  minute : Nat
  second : Nat
deriving DecidableEq, Repr

/-- `storage.File` (the gorm model): `SHA256` carries a unique index. -/
structure FileRecord where
  sha256 : String
  name : String
  path : String
  size : Int
  createdAt : GoTime
deriving DecidableEq, Repr

/-- The persistent record table. -/
structure Storage where
  records : List FileRecord
deriving DecidableEq, Repr

/-- Whether a record with this digest exists in the table. -/
def fileExistsB (s : Storage) (sha : String) : Bool :=
  s.records.any (fun r => r.sha256 == sha)

/-- `Storage.FileExists`: a `gorm.ErrRecordNotFound` is mapped to
`ok false`; any other database error (injected here as `dbErr`) is
propagated. -/
def FileExists (dbErr : Option String) (s : Storage) (sha : String) :
    Except String Bool :=
  match dbErr with
  | some e => .error e
  | none => .ok (fileExistsB s sha)

/-- `Storage.CreateFile`: the insert fails when the unique index on `sha256`
is violated (store-enforced uniqueness), or on an injected database error. -/
def CreateFile (dbErr : Option String) (s : Storage) (sha name path : String)
    (size : Int) (now : GoTime) : Except String Storage :=
  match dbErr with
  | some e => .error e
  | none =>
      if fileExistsB s sha then .error "UNIQUE constraint failed: files.sha256"
      else .ok ⟨s.records ++ [⟨sha, name, path, size, now⟩]⟩

/-- `Storage.Transaction`: runs `fn` against the store.  The database rollback
on failure is reflected in the type: the error case returns no storage, so the
caller necessarily retains the pre-transaction `s`.  Side effects of `fn`
outside the database (the `β` component, here the file system) are *not*
rolled back, exactly as in the Go code. -/
def Transaction {β : Type} (s : Storage) (fn : Storage → Except String Storage × β) :
    Except String Storage × β :=
  fn s

/-! ## Manifest Writer (`internal/manifest`, `src/unnamed/part_003`) -/

def digitChar (n : Nat) : Char :=
  match n with
  | 0 => '0' | 1 => '1' | 2 => '2' | 3 => '3' | 4 => '4'
  | 5 => '5' | 6 => '6' | 7 => '7' | 8 => '8' | 9 => '9'
  | _ => '0'

/-- Decimal digits, most significant first, with enough fuel (`fuel > log10 n`
always holds for the wrapper's `n + 1`, so the `0` case is unreachable). -/
def natDecAux : Nat → Nat → List Char
  | 0, _ => []
  | fuel + 1, n =>
      if n < 10 then [digitChar n]
      else natDecAux fuel (n / 10) ++ [digitChar (n % 10)]

/-- Decimal digits of `n`, most significant first. -/
def natDec (n : Nat) : List Char := natDecAux (n + 1) n

def natToStr (n : Nat) : String := ⟨natDec n⟩

/-- Go `strconv`-style rendering of an `int64`. -/
def intToStr (i : Int) : String :=
  if i < 0 then ⟨'-' :: natDec (-i).toNat⟩ else ⟨natDec i.toNat⟩

/-- `t.Format("01")` etc.: zero-padded two-digit field. -/
def pad2 (n : Nat) : String := if n < 10 then "0" ++ natToStr n else natToStr n

/-- `t.Format("2006")`: zero-padded four-digit year. -/
def pad4 (n : Nat) : String :=
  if n < 10 then "000" ++ natToStr n
  else if n < 100 then "00" ++ natToStr n
  else if n < 1000 then "0" ++ natToStr n
  else natToStr n

/-- `Writer.getManifestPath`:
`basePath/YYYY/MM/DD/HH/manifest.jsonl` from the timestamp. -/
def getManifestPath (basePath : String) (t : GoTime) : String :=
  goJoin (goJoin (goJoin (goJoin (goJoin basePath (pad4 t.year))
    (pad2 t.month)) (pad2 t.day)) (pad2 t.hour)) "manifest.jsonl"

def hexDigit (n : Nat) : Char :=
  match n with
  | 0 => '0' | 1 => '1' | 2 => '2' | 3 => '3' | 4 => '4'
  | 5 => '5' | 6 => '6' | 7 => '7' | 8 => '8' | 9 => '9'
  | 10 => 'a' | 11 => 'b' | 12 => 'c' | 13 => 'd' | 14 => 'e' | 15 => 'f'
  | _ => '0'

/-- Go `encoding/json` string escaping (with its default HTML escaping of
`<`, `>`, `&`); U+2028/U+2029 handling is omitted, as the repository never
produces them. -/
def jsonEscapeChar (c : Char) : List Char :=
  if c = '"' then ['\\', '"']
  else if c = '\\' then ['\\', '\\']
  else if c = '\n' then ['\\', 'n']
  else if c = '\r' then ['\\', 'r']
  else if c = '\t' then ['\\', 't']
  else if c = '<' then ['\\', 'u', '0', '0', '3', 'c']
  else if c = '>' then ['\\', 'u', '0', '0', '3', 'e']
  else if c = '&' then ['\\', 'u', '0', '0', '2', '6']
  else if c.toNat < 32 then
    ['\\', 'u', '0', '0', hexDigit (c.toNat / 16), hexDigit (c.toNat % 16)]
  else [c]

/-- A JSON string literal for `s`. -/
def jsonStr (s : String) : String :=
  ⟨'"' :: ((s.data.map jsonEscapeChar).flatten ++ ['"'])⟩

/-- `time.Time` marshals as a quoted RFC 3339 string (UTC, whole seconds). -/
def rfc3339 (t : GoTime) : String :=
  "\"" ++ pad4 t.year ++ "-" ++ pad2 t.month ++ "-" ++ pad2 t.day ++ "T" ++
    pad2 t.hour ++ ":" ++ pad2 t.minute ++ ":" ++ pad2 t.second ++ "Z\""

/-- `manifest.Entry`. -/
structure Entry where
  sha256 : String
  name : String
  sourcePath : String
  destPath : String
  size : Int
  processedAt : GoTime
deriving DecidableEq, Repr

/-- `json.Marshal` of an `Entry` (struct field order, json tags). -/
def jsonMarshalEntry (e : Entry) : String :=
  "\x7b\"sha256\":" ++ jsonStr e.sha256 ++
  ",\"name\":" ++ jsonStr e.name ++
  ",\"source_path\":" ++ jsonStr e.sourcePath ++
  ",\"dest_path\":" ++ jsonStr e.destPath ++
  ",\"size\":" ++ intToStr e.size ++
  ",\"processed_at\":" ++ rfc3339 e.processedAt ++ "\x7d"

/-- A manifest file on disk: what has been written, and the prefix known to be
flushed to stable storage (`file.Sync` copies `content` into `durable`). -/
structure MFile where
  content : String
  durable : String
deriving DecidableEq, Repr

/-- The manifest side of the file system: partition files plus the set of
directories that exist (`os.MkdirAll` is recorded by its leaf directory). -/
structure ManifestFS where
  files : List (String × MFile)
  dirs : List String
deriving DecidableEq, Repr

/-- `manifest.Writer`. -/
structure Writer where
  basePath : String
deriving DecidableEq, Repr

def NewWriter (basePath : String) : Writer := ⟨basePath⟩

/-- `Writer.Append`: resolve the partition path from the processed-at
timestamp, MkdirAll the directory, open `O_APPEND|O_CREATE|O_WRONLY`, write
the JSON line plus `'\n'`, and `Sync` before returning. -/
def Writer.Append (w : Writer) (mfs : ManifestFS) (e : Entry) : ManifestFS :=
  let manifestPath := getManifestPath w.basePath e.processedAt
  let dir := dirOfPath manifestPath
  let dirs' := if dir ∈ mfs.dirs then mfs.dirs else dir :: mfs.dirs
  let old : MFile :=
    match lookupKV mfs.files manifestPath with
    | some f => f
    | none => ⟨"", ""⟩
  let newContent := old.content ++ jsonMarshalEntry e ++ "\n"
  { files := storeKV mfs.files manifestPath ⟨newContent, newContent⟩, dirs := dirs' }

/-! ### The marshalled record is a single line -/

theorem hexDigit_ne_newline (n : Nat) : hexDigit n ≠ '\n' := by
  unfold hexDigit
  split <;> decide

theorem digitChar_ne_newline (n : Nat) : digitChar n ≠ '\n' := by
  unfold digitChar
  split <;> decide

theorem natDecAux_ne_newline (fuel n : Nat) : '\n' ∉ natDecAux fuel n := by
  induction fuel generalizing n with
  | zero => simp [natDecAux]
  | succ f ih =>
      unfold natDecAux
      by_cases h : n < 10
      · rw [if_pos h]
        intro hmem
        rcases (by simpa using hmem : '\n' = digitChar n) with h2
        exact digitChar_ne_newline n h2.symm
      · rw [if_neg h]
        intro hmem
        rcases List.mem_append.mp hmem with h2 | h2
        · exact ih (n / 10) h2
        · rcases (by simpa using h2 : '\n' = digitChar (n % 10)) with h3
          exact digitChar_ne_newline _ h3.symm

/-- No newline among the decimal digits. -/
theorem natDec_ne_newline (n : Nat) : '\n' ∉ natDec n :=
  natDecAux_ne_newline (n + 1) n

/-- `noNL s`: the string contains no newline. -/
abbrev noNL (s : String) : Prop := '\n' ∉ s.data

theorem noNL_append {a b : String} (ha : noNL a) (hb : noNL b) : noNL (a ++ b) := by
  intro h
  rw [strData_append] at h
  rcases List.mem_append.mp h with h2 | h2
  · exact ha h2
  · exact hb h2

theorem noNL_natToStr (n : Nat) : noNL (natToStr n) := natDec_ne_newline n

theorem noNL_intToStr (i : Int) : noNL (intToStr i) := by
  unfold intToStr noNL
  by_cases h : i < 0
  · rw [if_pos h]
    intro hmem
    rcases (by simpa using hmem : '\n' = '-' ∨ '\n' ∈ natDec (-i).toNat) with h2 | h2
    · exact absurd h2 (by decide)
    · exact natDec_ne_newline _ h2
  · rw [if_neg h]
    exact natDec_ne_newline _

theorem noNL_pad2 (n : Nat) : noNL (pad2 n) := by
  unfold pad2
  by_cases h : n < 10
  · rw [if_pos h]
    exact noNL_append (by decide) (noNL_natToStr n)
  · rw [if_neg h]
    exact noNL_natToStr n

theorem noNL_pad4 (n : Nat) : noNL (pad4 n) := by
  unfold pad4
  by_cases h1 : n < 10
  · rw [if_pos h1]; exact noNL_append (by decide) (noNL_natToStr n)
  rw [if_neg h1]
  by_cases h2 : n < 100
  · rw [if_pos h2]; exact noNL_append (by decide) (noNL_natToStr n)
  rw [if_neg h2]
  by_cases h3 : n < 1000
  · rw [if_pos h3]; exact noNL_append (by decide) (noNL_natToStr n)
  rw [if_neg h3]
  exact noNL_natToStr n

theorem jsonEscapeChar_ne_newline (c : Char) : '\n' ∉ jsonEscapeChar c := by
  unfold jsonEscapeChar
  by_cases h1 : c = '"'
  · rw [if_pos h1]; decide
  rw [if_neg h1]
  by_cases h2 : c = '\\'
  · rw [if_pos h2]; decide
  rw [if_neg h2]
  by_cases h3 : c = '\n'
  · rw [if_pos h3]; decide
  rw [if_neg h3]
  by_cases h4 : c = '\r'
  · rw [if_pos h4]; decide
  rw [if_neg h4]
  by_cases h5 : c = '\t'
  · rw [if_pos h5]; decide
  rw [if_neg h5]
  by_cases h6 : c = '<'
  · rw [if_pos h6]; decide
  rw [if_neg h6]
  by_cases h7 : c = '>'
  · rw [if_pos h7]; decide
  rw [if_neg h7]
  by_cases h8 : c = '&'
  · rw [if_pos h8]; decide
  rw [if_neg h8]
  by_cases h9 : c.toNat < 32
  · rw [if_pos h9]
    intro hmem
    rcases (by simpa using hmem :
        '\n' = '\\' ∨ '\n' = 'u' ∨ '\n' = '0' ∨ '\n' = '0' ∨
          '\n' = hexDigit (c.toNat / 16) ∨ '\n' = hexDigit (c.toNat % 16)) with
      h | h | h | h | h | h
    · exact absurd h (by decide)
    · exact absurd h (by decide)
    · exact absurd h (by decide)
    · exact absurd h (by decide)
    · exact hexDigit_ne_newline _ h.symm
    · exact hexDigit_ne_newline _ h.symm
  rw [if_neg h9]
  intro hmem
  rcases (by simpa using hmem : '\n' = c) with h10
  exact h3 h10.symm

theorem noNL_jsonStr (s : String) : noNL (jsonStr s) := by
  intro h
  unfold jsonStr at h
  rcases (by simpa using h :
      '\n' = '"' ∨ '\n' ∈ (s.data.map jsonEscapeChar).flatten ∨ '\n' = '"') with h2 | h2 | h2
  · exact absurd h2 (by decide)
  · rcases List.mem_flatten.mp h2 with ⟨chunk, hchunk, hmem⟩
    rcases List.mem_map.mp hchunk with ⟨d, _, hd⟩
    exact jsonEscapeChar_ne_newline d (hd ▸ hmem)
  · exact absurd h2 (by decide)

theorem noNL_rfc3339 (t : GoTime) : noNL (rfc3339 t) := by
  unfold rfc3339
  refine noNL_append (noNL_append (noNL_append (noNL_append (noNL_append
    (noNL_append (noNL_append (noNL_append (noNL_append (noNL_append
      (noNL_append (noNL_append (by decide) (noNL_pad4 _)) (by decide))
        (noNL_pad2 _)) (by decide)) (noNL_pad2 _)) (by decide)) (noNL_pad2 _))
          (by decide)) (noNL_pad2 _)) (by decide)) (noNL_pad2 _)) (by decide)

/-- The marshalled entry is one line: it contains no newline character. -/
theorem noNL_jsonMarshalEntry (e : Entry) : noNL (jsonMarshalEntry e) := by
  unfold jsonMarshalEntry
  refine noNL_append (noNL_append (noNL_append (noNL_append (noNL_append
    (noNL_append (noNL_append (noNL_append (noNL_append (noNL_append
      (noNL_append (noNL_append (by decide) (noNL_jsonStr _)) (by decide))
        (noNL_jsonStr _)) (by decide)) (noNL_jsonStr _)) (by decide))
          (noNL_jsonStr _)) (by decide)) (noNL_intToStr _)) (by decide))
            (noNL_rfc3339 _)) (by decide)

/-! ## Processor (`internal/processor/processor.go`) -/

/-- The configuration fields `processFile` reads. -/
structure Config where
  path : String
  destination : String
  dryRun : Bool
deriving DecidableEq, Repr

/-- Injected outcomes for the fallible externals of one `processFile` call. -/
structure Faults where
  /-- a read error inside `fileops.CalculateSHA256` after the file opened. -/
  hashErr : Option String
  /-- a database error (other than not-found) inside `Storage.FileExists`. -/
  existsErr : Option String
  /-- a database error (other than the unique index) inside `CreateFile`. -/
  createErr : Option String
  /-- failure of `os.MkdirAll` for the destination directory. -/
  mkdirErr : Option String
  /-- outcomes of the syscalls inside `fileops.MoveFile`. -/
  move : MoveFaults
  /-- failure of `manifest.Writer.Append` (swallowed by the processor). -/
  manifestErr : Option String
deriving DecidableEq, Repr

def noFaults : Faults := ⟨none, none, none, none, noMoveFaults, none⟩

/-- `fileops.CalculateSHA256`: open and stream the file through the digest
function.  `hashFn` stands for the SHA-256 compression (any fixed function of
the bytes); a mid-stream read failure is injected via `hashErr`. -/
def CalculateSHA256 (hashFn : Content → String) (hashErr : Option String)
    (fs : FS) (filePath : String) : Except String String :=
  match lookupKV fs filePath with
  | none => .error "open file"
  | some content =>
      match hashErr with
      | some e => .error ("read file for hash: " ++ e)
      | none => .ok (hashFn content)

/-- The mutable world a `processFile` call touches: the file system, the
dedup store, the watcher's tracking state, and the (successfully appended)
manifest entries. -/
structure SysState where
  fs : FS
  store : Storage
  w : Watcher
  manifest : List Entry
deriving DecidableEq, Repr

/-- The closure passed to `Storage.Transaction` by `processFile`: create the
record, `MkdirAll` the destination directory, move the file.  The returned
file system reflects whatever the move left on disk; the storage is only
returned on success (the database transaction rolls back otherwise). -/
def ingestTx (flt : Faults) (store : Storage) (fs : FS)
    (hash name filePath : String) (size : Int) (dstPath : String) (now : GoTime) :
    Except String Storage × FS :=
  match CreateFile flt.createErr store hash name filePath size now with
  | .error e => (.error ("create database record: " ++ e), fs)
  | .ok store' =>
      match flt.mkdirErr with
      | some e =>
          (.error ("create destination directory " ++ dirOfPath dstPath ++ ": " ++ e), fs)
      | none =>
          match MoveFile flt.move fs filePath dstPath with
          | (.error e, fs') => (.error ("move file to " ++ dstPath ++ ": " ++ e), fs')
          | (.ok _, fs') => (.ok store', fs')

/-- `Processor.processFile` (worker body), called at wall-clock time `now`.
`os.Stat` succeeds iff the path is a file in `fs`; `info.Name()` is the base
name and `info.Size()` the byte count. -/
def processFile (hashFn : Content → String) (cfg : Config) (flt : Faults)
    (st : SysState) (filePath : String) (now : GoTime) :
    Except String Unit × SysState :=
  match lookupKV st.fs filePath with
  | none =>
      (.error ("stat file " ++ filePath),
        { st with w := RemoveFromTracking st.w filePath })
  | some content =>
      match CalculateSHA256 hashFn flt.hashErr st.fs filePath with
      | .error e =>
          (.error ("calculate SHA256 for " ++ filePath ++ ": " ++ e),
            { st with w := RemoveFromTracking st.w filePath })
      | .ok hash =>
          match FileExists flt.existsErr st.store hash with
          | .error e =>
              (.error ("check file existence for " ++ filePath ++ ": " ++ e), st)
          | .ok true =>
              (.ok (), { st with w := RemoveFromTracking st.w filePath })
          | .ok false =>
              match goRel cfg.path filePath with
              | none => (.error ("calculate relative path for " ++ filePath), st)
              | some relPath =>
                  let dstPath := goJoin cfg.destination relPath
                  if cfg.dryRun then
                    (.ok (), { st with w := RemoveFromTracking st.w filePath })
                  else
                    match Transaction st.store (fun s =>
                        ingestTx flt s st.fs hash (goBase filePath) filePath
                          (content.length : Int) dstPath now) with
                    | (.error e, fs') =>
                        (.error ("process file " ++ filePath ++ ": " ++ e),
                          { st with fs := fs' })
                    | (.ok store', fs') =>
                        let entry : Entry :=
                          ⟨hash, goBase filePath, filePath, dstPath,
                            (content.length : Int), now⟩
                        let manifest' :=
                          match flt.manifestErr with
                          | some _ => st.manifest
                          | none => st.manifest ++ [entry]
                        (.ok (),
                          { fs := fs', store := store',
                            w := RemoveFromTracking st.w filePath,
                            manifest := manifest' })

/-! ## Shared helper lemmas about `processFile` -/

/-- When the digest already exists, `processFile` only untracks the path and
reports success; nothing else in the state changes. -/
theorem processFile_dup (hashFn : Content → String) (cfg : Config) (flt : Faults)
    (st : SysState) (p : String) (c : Content) (now : GoTime)
    (hstat : lookupKV st.fs p = some c)
    (hhash : flt.hashErr = none)
    (hex : flt.existsErr = none)
    (hdup : fileExistsB st.store (hashFn c) = true) :
    processFile hashFn cfg flt st p now =
      (.ok (), { st with w := RemoveFromTracking st.w p }) := by
  simp only [processFile, CalculateSHA256, FileExists, hstat, hhash, hex, hdup]

/-! ## The claims -/

/-- C1: ingesting two files with identical bytes and distinct names yields
exactly one FileRecord and at most one relocated file.  With `in/x` and `in/y`
holding the same content `c`: the first call succeeds, moves `in/x` to
`dest/x` and records one FileRecord; the second call's existence check
succeeds, so it untracks `in/y` and returns success with the store, file
system and manifest unchanged (`in/y` stays in place, `dest/y` is never
created); and the uniqueness is enforced by the store itself — `CreateFile`
on the duplicate digest fails with the unique-index violation. -/
theorem C1_identical_content_distinct_names (hashFn : Content → String) (c : Content) :
    processFile hashFn ⟨"in", "dest", false⟩ noFaults
        ⟨[("in/x", c), ("in/y", c)], ⟨[]⟩, stabW 1 [("in/x", 0), ("in/y", 0)], []⟩
        "in/x" ⟨2026, 1, 1, 0, 0, 0⟩ =
      (.ok (), ⟨[("in/y", c), ("dest/x", c)],
        ⟨[⟨hashFn c, "x", "in/x", (c.length : Int), ⟨2026, 1, 1, 0, 0, 0⟩⟩]⟩,
        stabW 1 [("in/y", 0)],
        [⟨hashFn c, "x", "in/x", "dest/x", (c.length : Int), ⟨2026, 1, 1, 0, 0, 0⟩⟩]⟩) ∧
    processFile hashFn ⟨"in", "dest", false⟩ noFaults
        ⟨[("in/y", c), ("dest/x", c)],
          ⟨[⟨hashFn c, "x", "in/x", (c.length : Int), ⟨2026, 1, 1, 0, 0, 0⟩⟩]⟩,
          stabW 1 [("in/y", 0)],
          [⟨hashFn c, "x", "in/x", "dest/x", (c.length : Int), ⟨2026, 1, 1, 0, 0, 0⟩⟩]⟩
        "in/y" ⟨2026, 1, 1, 0, 0, 0⟩ =
      (.ok (), ⟨[("in/y", c), ("dest/x", c)],
        ⟨[⟨hashFn c, "x", "in/x", (c.length : Int), ⟨2026, 1, 1, 0, 0, 0⟩⟩]⟩,
        stabW 1 [],
        [⟨hashFn c, "x", "in/x", "dest/x", (c.length : Int), ⟨2026, 1, 1, 0, 0, 0⟩⟩]⟩) ∧
    CreateFile none ⟨[⟨hashFn c, "x", "in/x", (c.length : Int), ⟨2026, 1, 1, 0, 0, 0⟩⟩]⟩
        (hashFn c) "y" "in/y" (c.length : Int) ⟨2026, 1, 1, 0, 0, 0⟩ =
      .error "UNIQUE constraint failed: files.sha256" := by
  refine ⟨rfl, ?_, ?_⟩
  · have hdup : fileExistsB
        ⟨[⟨hashFn c, "x", "in/x", (c.length : Int), ⟨2026, 1, 1, 0, 0, 0⟩⟩]⟩
        (hashFn c) = true := by
      simp [fileExistsB]
    exact processFile_dup hashFn ⟨"in", "dest", false⟩ noFaults _ "in/y" c
      ⟨2026, 1, 1, 0, 0, 0⟩ rfl rfl rfl hdup
  · simp [CreateFile, fileExistsB]

/-- C2: if the per-file transaction (create record, mkdir, move) fails, no
FileRecord is committed and the path stays tracked: the resulting state keeps
the original store, watcher tracking state and manifest, changing at most the
file system to whatever the failed move left behind. -/
theorem C2_tx_failure_rolls_back_and_keeps_tracking
    (hashFn : Content → String) (cfg : Config) (flt : Faults) (st : SysState)
    (p relP e : String) (c : Content) (now : GoTime) (fs' : FS)
    (hstat : lookupKV st.fs p = some c)
    (hhash : flt.hashErr = none)
    (hex : flt.existsErr = none)
    (hnodup : fileExistsB st.store (hashFn c) = false)
    (hdry : cfg.dryRun = false)
    (hrel : goRel cfg.path p = some relP)
    (htx : ingestTx flt st.store st.fs (hashFn c) (goBase p) p (c.length : Int)
      (goJoin cfg.destination relP) now = (.error e, fs')) :
    processFile hashFn cfg flt st p now =
      (.error ("process file " ++ p ++ ": " ++ e), { st with fs := fs' }) := by
  simp [processFile, CalculateSHA256, FileExists, Transaction,
    hstat, hhash, hex, hnodup, hdry, hrel, htx]

/-- Witness for C2: a cross-filesystem move whose copy step fails makes the
transaction fail; the store and tracking state come out unchanged. -/
theorem C2_witness :
    processFile (fun _ => "H") ⟨"in", "dest", false⟩
      ⟨none, none, none, none, ⟨true, true, false, false⟩, none⟩
      ⟨[("in/x", [1])], ⟨[]⟩, stabW 1 [("in/x", 0)], []⟩ "in/x" ⟨2026, 1, 1, 0, 0, 0⟩ =
      (.error "process file in/x: move file to dest/x: copy file contents",
        ⟨[("in/x", [1])], ⟨[]⟩, stabW 1 [("in/x", 0)], []⟩) :=
  C2_tx_failure_rolls_back_and_keeps_tracking (fun _ => "H") ⟨"in", "dest", false⟩
    ⟨none, none, none, none, ⟨true, true, false, false⟩, none⟩
    ⟨[("in/x", [1])], ⟨[]⟩, stabW 1 [("in/x", 0)], []⟩
    "in/x" "x" "move file to dest/x: copy file contents" [1] ⟨2026, 1, 1, 0, 0, 0⟩
    [("in/x", [1])] rfl rfl rfl rfl rfl rfl rfl

/-- C9: when the digest already exists, `processFile` untracks the path and
returns success, and everything else is a frame: the file system (the source
file in particular), the store and the manifest are exactly those of the
input state. -/
theorem C9_duplicate_skip_is_pure_untrack
    (hashFn : Content → String) (cfg : Config) (flt : Faults) (st : SysState)
    (p : String) (c : Content) (now : GoTime)
    (hstat : lookupKV st.fs p = some c)
    (hhash : flt.hashErr = none)
    (hex : flt.existsErr = none)
    (hdup : fileExistsB st.store (hashFn c) = true) :
    processFile hashFn cfg flt st p now =
      (.ok (), { st with w := RemoveFromTracking st.w p }) :=
  processFile_dup hashFn cfg flt st p c now hstat hhash hex hdup

/-- Witness for C9: a concrete duplicate is skipped with the source file left
in place. -/
theorem C9_witness :
    processFile (fun _ => "H") ⟨"in", "dest", false⟩ noFaults
      ⟨[("in/x", [1])], ⟨[⟨"H", "old", "in/old", 1, ⟨2025, 1, 1, 0, 0, 0⟩⟩]⟩,
        stabW 1 [("in/x", 0)], []⟩ "in/x" ⟨2026, 1, 1, 0, 0, 0⟩ =
      (.ok (), ⟨[("in/x", [1])], ⟨[⟨"H", "old", "in/old", 1, ⟨2025, 1, 1, 0, 0, 0⟩⟩]⟩,
        stabW 1 [], []⟩) :=
  C9_duplicate_skip_is_pure_untrack (fun _ => "H") ⟨"in", "dest", false⟩ noFaults
    ⟨[("in/x", [1])], ⟨[⟨"H", "old", "in/old", 1, ⟨2025, 1, 1, 0, 0, 0⟩⟩]⟩,
      stabW 1 [("in/x", 0)], []⟩ "in/x" [1] ⟨2026, 1, 1, 0, 0, 0⟩
    rfl rfl rfl (by decide)

/-- C10: when `FileExists` itself fails, `processFile` propagates the error
and leaves the whole state — the tracking state included — untouched, so the
path is reconsidered on a later tick; by contrast a stat failure or a hash
failure untracks the path before returning the error. -/
theorem C10_exists_error_keeps_tracking
    (hashFn : Content → String) (cfg : Config) (flt : Faults) (st : SysState)
    (p : String) (c : Content) (now : GoTime) (e : String)
    (hstat : lookupKV st.fs p = some c)
    (hhash : flt.hashErr = none)
    (hex : flt.existsErr = some e) :
    processFile hashFn cfg flt st p now =
      (.error ("check file existence for " ++ p ++ ": " ++ e), st) ∧
    (∀ q, lookupKV st.fs q = none →
      processFile hashFn cfg flt st q now =
        (.error ("stat file " ++ q), { st with w := RemoveFromTracking st.w q })) ∧
    (∀ e2, processFile hashFn cfg { flt with hashErr := some e2 } st p now =
      (.error ("calculate SHA256 for " ++ p ++ ": " ++ ("read file for hash: " ++ e2)),
        { st with w := RemoveFromTracking st.w p })) := by
  refine ⟨?_, ?_, ?_⟩
  · simp only [processFile, CalculateSHA256, FileExists, hstat, hhash, hex]
  · intro q hq
    simp only [processFile, hq]
  · intro e2
    simp only [processFile, CalculateSHA256, hstat]

/-- Witness for C10: a concrete database failure during the existence check
leaves the path tracked. -/
theorem C10_witness :
    processFile (fun _ => "H") ⟨"in", "dest", false⟩
      ⟨none, some "db is locked", none, none, noMoveFaults, none⟩
      ⟨[("in/x", [1])], ⟨[]⟩, stabW 1 [("in/x", 0)], []⟩ "in/x" ⟨2026, 1, 1, 0, 0, 0⟩ =
      (.error "check file existence for in/x: db is locked",
        ⟨[("in/x", [1])], ⟨[]⟩, stabW 1 [("in/x", 0)], []⟩) :=
  (C10_exists_error_keeps_tracking (fun _ => "H") ⟨"in", "dest", false⟩
    ⟨none, some "db is locked", none, none, noMoveFaults, none⟩
    ⟨[("in/x", [1])], ⟨[]⟩, stabW 1 [("in/x", 0)], []⟩
    "in/x" [1] ⟨2026, 1, 1, 0, 0, 0⟩ "db is locked" rfl rfl rfl).1

/-- C7: `MoveFile` on a regular file first attempts the atomic rename; when
the rename fails it copies to `dst + ".tmp"`, renames the temp file onto
`dst`, then removes `src`.  If the copy fails, the temp file is removed and
`src` is untouched; if only the final removal of `src` fails, an error is
returned although `dst` already holds the complete content. -/
theorem C7_moveFile_semantics (mf : MoveFaults) (fs : FS) (src dst : String)
    (c : Content)
    (hsrc : lookupKV fs src = some c)
    (hsd : src ≠ dst)
    (hst : src ≠ dst ++ ".tmp") :
    (mf.renameFails = false →
      MoveFile mf fs src dst = (.ok (), storeKV (deleteKV fs src) dst c)) ∧
    (mf.renameFails = true → mf.copyErr = true →
      MoveFile mf fs src dst =
          (.error "copy file contents", deleteKV fs (dst ++ ".tmp")) ∧
        lookupKV (deleteKV fs (dst ++ ".tmp")) (dst ++ ".tmp") = none ∧
        lookupKV (deleteKV fs (dst ++ ".tmp")) src = some c) ∧
    (mf.renameFails = true → mf.copyErr = false → mf.rename2Err = false →
      mf.removeErr = true →
      (MoveFile mf fs src dst).1 =
          .error "remove source after copy (destination is safe)" ∧
        lookupKV (MoveFile mf fs src dst).2 dst = some c) ∧
    (mf.renameFails = true → mf.copyErr = false → mf.rename2Err = false →
      mf.removeErr = false →
      (MoveFile mf fs src dst).1 = .ok () ∧
        lookupKV (MoveFile mf fs src dst).2 dst = some c ∧
        lookupKV (MoveFile mf fs src dst).2 src = none) := by
  have hds : ¬(dst = src) := fun h => hsd h.symm
  have hts : ¬(dst ++ ".tmp" = src) := fun h => hst h.symm
  refine ⟨?_, ?_, ?_, ?_⟩
  · intro h1
    simp [MoveFile, hsrc, h1]
  · intro h1 h2
    refine ⟨by simp [MoveFile, hsrc, h1, h2], ?_, ?_⟩
    · rw [lookupKV_deleteKV, if_pos rfl]
    · rw [lookupKV_deleteKV, if_neg hts, hsrc]
  · intro h1 h2 h3 h4
    have hmv : MoveFile mf fs src dst =
        (.error "remove source after copy (destination is safe)",
          storeKV (deleteKV (storeKV fs (dst ++ ".tmp") c) (dst ++ ".tmp")) dst c) := by
      simp [MoveFile, hsrc, h1, h2, h3, h4]
    rw [hmv]
    exact ⟨rfl, by rw [lookupKV_storeKV, if_pos rfl]⟩
  · intro h1 h2 h3 h4
    have hmv : MoveFile mf fs src dst =
        (.ok (), deleteKV (storeKV (deleteKV (storeKV fs (dst ++ ".tmp") c)
          (dst ++ ".tmp")) dst c) src) := by
      simp [MoveFile, hsrc, h1, h2, h3, h4]
    rw [hmv]
    refine ⟨rfl, ?_, ?_⟩
    · rw [lookupKV_deleteKV, if_neg hsd, lookupKV_storeKV, if_pos rfl]
    · rw [lookupKV_deleteKV, if_pos rfl]

/-- Witness for C7: a concrete fallback move (rename rejected, no other
failure) lands the content at the destination and removes the source. -/
theorem C7_witness :
    (MoveFile ⟨true, false, false, false⟩ [("a/s", [7])] "a/s" "b/d").1 = .ok () ∧
      lookupKV (MoveFile ⟨true, false, false, false⟩ [("a/s", [7])] "a/s" "b/d").2
        "b/d" = some [7] ∧
      lookupKV (MoveFile ⟨true, false, false, false⟩ [("a/s", [7])] "a/s" "b/d").2
        "a/s" = none :=
  (C7_moveFile_semantics ⟨true, false, false, false⟩ [("a/s", [7])] "a/s" "b/d" [7]
    (by decide) (by decide) (by decide)).2.2.2 rfl rfl rfl rfl

/-- Counterexample for C3 as stated: the stability-window detector does not
record the file's size or modification time.  Two single-event traces that
agree on event name, op and arrival time but differ in both the on-disk size
and the on-disk mtime produce identical detector states (hence identical
ready sets at every query time): the tracking state stores only `time.Now()`. -/
theorem C3_counterexample :
    runEvents (stabW 10 []) [⟨"in/f", true, false, 0, 5, 100⟩] =
      runEvents (stabW 10 []) [⟨"in/f", true, false, 0, 7, 999⟩] ∧
    (5 : Nat) ≠ 7 ∧ (100 : Nat) ≠ 999 :=
  ⟨rfl, by decide, by decide⟩

/-- C3 (amended): in stability-window mode the detector records the event's
arrival time (`time.Now()`), not the file's size or mtime: a path is ready at
`now` iff strictly more than the window has elapsed since its last candidate
create/write event.  The spec's guarantee consequently holds in the safety
direction: on a chronological trace, a ready path also satisfies the spec's
"window elapsed since the last recorded size/mtime change" condition, because
every observable size/mtime change arrives with a create/write event, which
resets the code's timer. -/
theorem C3_stability_window_resets_on_events :
    (∀ (secs : Nat) (evs : List Event) (p : String) (now : Nat),
      p ∈ GetFilesToProcess (runEvents (stabW secs []) evs) now ↔
        ∃ t, lastWriteTime evs p = some t ∧ t + secs * nsPerSecond < now) ∧
    (∀ (secs : Nat) (evs : List Event) (p : String) (now : Nat),
      chronFromB 0 evs = true →
      p ∈ GetFilesToProcess (runEvents (stabW secs []) evs) now →
      specStabilityReady evs p secs now) := by
  constructor
  · intro secs evs p now
    exact stab_ready_iff secs evs p now
  · intro secs evs p now hchron hmem
    obtain ⟨t, hlast, hlt⟩ := (stab_ready_iff secs evs p now).mp hmem
    obtain ⟨cg, hle, hspec⟩ := specLastChange_le evs p hchron t hlast
    exact ⟨cg, hspec, by omega⟩

/-- Counterexample for C4: in sidecar mode the `.ok` handling in the event
loop precedes the hidden/temp-file filter, so creating the sidecar `.h.ok`
marks the hidden file `.h` ready. -/
theorem C4_counterexample :
    shouldIgnoreFile ".h" = true ∧
      ".h" ∈ GetFilesToProcess
        (runEvents (sideW []) [⟨".h.ok", true, false, 0, 0, 0⟩]) 0 := by
  decide

/-- C4 (amended): in every reachable tracking state (events and untracks from
a fresh watcher), hidden and excluded files never appear in the
stability-window ready set; in sidecar mode a path appears in the ready set
only if a create event for its `.ok` sidecar was observed — hidden/excluded
files are never readied by their own events, but a matching `.ok` sidecar
does ready them. -/
theorem C4_ignored_files_ready_set :
    (∀ (secs : Nat) (l : List WStep) (p : String) (now : Nat),
      shouldIgnoreFile p = true →
      p ∉ GetFilesToProcess (runSteps (stabW secs []) l) now) ∧
    (∀ (l : List WStep) (p : String) (now : Nat),
      p ∈ GetFilesToProcess (runSteps (sideW []) l) now →
      ∃ e, WStep.ev e ∈ l ∧ e.create = true ∧ e.name = p ++ ".ok") := by
  constructor
  · intro secs l p now hig hmem
    rw [runSteps_stab] at hmem
    have hkey := mem_GetFiles_stabW_keys secs _ now p hmem
    have hfalse := stabStepFold_keys l [] p
      (by intro r hr; exact absurd hr (by simp [keysOf])) hkey
    rw [hfalse] at hig
    exact absurd hig (by decide)
  · intro l p now hmem
    rw [runSteps_side] at hmem
    have hkey := mem_GetFiles_sideW_keys _ now p hmem
    rcases sideStepFold_from_event l [] p hkey with h | ⟨e, he, hc, hp⟩
    · exact absurd h (by simp [keysOf])
    · have hsuf : strHasSuffix e.name ".ok" = true := ((Bool.and_eq_true _ _).mp hc).1
      have hcr : e.create = true := ((Bool.and_eq_true _ _).mp hc).2
      refine ⟨e, he, hcr, ?_⟩
      rw [← hp]
      exact (trimSuffixStr_append hsuf).symm

/-- Counterexample for C5: under the stability-window policy a `.ok` file is
an ordinary candidate — `shouldIgnoreFile` does not exclude it and the
sidecar branch is inactive — so its own create event enters it into tracking
and it appears in the ready set once the window elapses. -/
theorem C5_counterexample :
    strHasSuffix "a.ok" ".ok" = true ∧
      "a.ok" ∈ GetFilesToProcess
        (runEvents (stabW 0 []) [⟨"a.ok", true, false, 0, 0, 0⟩]) 1 := by
  decide

/-- C5 (amended): under the sidecar policy a `.ok` path is never entered into
tracking by its own create/write events (an event named `p` stores the
trimmed target, never `p` itself), and it appears in the ready set exactly
when a create event for `p ++ ".ok"` was observed.  Under the
stability-window policy `.ok` files are ordinary candidates (see the
counterexample). -/
theorem C5_ok_files_not_self_candidates
    (p : String) (hsuf : strHasSuffix p ".ok" = true) :
    (∀ (e : Event) (m : List (String × Bool)), e.name = p →
      lookupKV (sideFold m [e]) p = lookupKV m p) ∧
    (∀ (evs : List Event) (now : Nat),
      p ∈ GetFilesToProcess (runEvents (sideW []) evs) now ↔
        ∃ e ∈ evs, e.create = true ∧ e.name = p ++ ".ok") := by
  constructor
  · intro e m hname
    show lookupKV (if sideStoreCond e then
      storeKV m (trimSuffixStr e.name ".ok") true else m) p = lookupKV m p
    by_cases hc : sideStoreCond e
    · have hne : trimSuffixStr e.name ".ok" ≠ p := by
        rw [hname]
        exact trimSuffixStr_ne hsuf
      rw [if_pos hc, lookupKV_storeKV, if_neg hne]
    · rw [if_neg hc]
  · intro evs now
    exact side_ready_iff evs p now

/-- Witness for C5: a create event on `a.ok` itself does not put `a.ok` into
the sidecar tracking state. -/
theorem C5_witness :
    lookupKV (sideFold [] [⟨"a.ok", true, false, 0, 0, 0⟩]) "a.ok" =
      lookupKV ([] : List (String × Bool)) "a.ok" :=
  (C5_ok_files_not_self_candidates "a.ok" (by decide)).1
    ⟨"a.ok", true, false, 0, 0, 0⟩ [] rfl

/-- C6: in sidecar mode a candidate path never becomes ready through its own
create/write events; it is ready exactly when a create event for
`<name>.ok` has been observed — immediately (the query time `now` does not
matter) and regardless of the path's own write history (only `.ok` create
events influence the completion map). -/
theorem C6_sidecar_exact_readiness (evs : List Event) (p : String) (now : Nat) :
    p ∈ GetFilesToProcess (runEvents (sideW []) evs) now ↔
      ∃ e ∈ evs, e.create = true ∧ e.name = p ++ ".ok" :=
  side_ready_iff evs p now

/-! ### Lemmas for the manifest path shape -/

theorem natDec_ne_nil (n : Nat) : natDec n ≠ [] := by
  unfold natDec natDecAux
  by_cases h : n < 10
  · rw [if_pos h]
    simp
  · rw [if_neg h]
    simp

theorem natToStr_ne_empty (n : Nat) : natToStr n ≠ "" := by
  intro h
  exact natDec_ne_nil n (by simpa [natToStr, String.ext_iff] using h)

theorem append_ne_empty_of_right {a b : String} (hb : b ≠ "") : a ++ b ≠ "" := by
  intro h
  apply hb
  have hdata := congrArg String.data h
  rw [strData_append] at hdata
  exact String.ext (List.append_eq_nil.mp hdata).2

theorem pad2_ne_empty (n : Nat) : pad2 n ≠ "" := by
  unfold pad2
  by_cases h : n < 10
  · rw [if_pos h]
    exact append_ne_empty_of_right (natToStr_ne_empty n)
  · rw [if_neg h]
    exact natToStr_ne_empty n

theorem pad4_ne_empty (n : Nat) : pad4 n ≠ "" := by
  unfold pad4
  by_cases h1 : n < 10
  · rw [if_pos h1]; exact append_ne_empty_of_right (natToStr_ne_empty n)
  rw [if_neg h1]
  by_cases h2 : n < 100
  · rw [if_pos h2]; exact append_ne_empty_of_right (natToStr_ne_empty n)
  rw [if_neg h2]
  by_cases h3 : n < 1000
  · rw [if_pos h3]; exact append_ne_empty_of_right (natToStr_ne_empty n)
  rw [if_neg h3]
  exact natToStr_ne_empty n

theorem goJoin_of_ne (a b : String) (ha : a ≠ "") (hb : b ≠ "") :
    goJoin a b = a ++ "/" ++ b := by
  unfold goJoin
  rw [if_neg ha, if_neg hb]

theorem getManifestPath_eq (basePath : String) (t : GoTime) (hb : basePath ≠ "") :
    getManifestPath basePath t =
      basePath ++ "/" ++ pad4 t.year ++ "/" ++ pad2 t.month ++ "/" ++ pad2 t.day ++
        "/" ++ pad2 t.hour ++ "/" ++ "manifest.jsonl" := by
  unfold getManifestPath
  rw [goJoin_of_ne _ _ hb (pad4_ne_empty _)]
  rw [goJoin_of_ne _ _ (append_ne_empty_of_right (pad4_ne_empty _)) (pad2_ne_empty _)]
  rw [goJoin_of_ne _ _ (append_ne_empty_of_right (pad2_ne_empty _)) (pad2_ne_empty _)]
  rw [goJoin_of_ne _ _ (append_ne_empty_of_right (pad2_ne_empty _)) (pad2_ne_empty _)]
  rw [goJoin_of_ne _ _ (append_ne_empty_of_right (pad2_ne_empty _)) (by decide)]

/-- C8: `Append` resolves `<manifests-root>/YYYY/MM/DD/HH/manifest.jsonl` from
the entry's processed-at timestamp, records the directory as created, opens
the target in append mode (starting from empty contents when the file is
absent), writes the entry as exactly one single-line JSON record followed by
a newline, and syncs before returning: the durable contents equal the written
contents in the resulting state. -/
theorem C8_manifest_append (w : Writer) (mfs : ManifestFS) (e : Entry)
    (hb : w.basePath ≠ "") :
    getManifestPath w.basePath e.processedAt =
      w.basePath ++ "/" ++ pad4 e.processedAt.year ++ "/" ++
        pad2 e.processedAt.month ++ "/" ++ pad2 e.processedAt.day ++ "/" ++
        pad2 e.processedAt.hour ++ "/" ++ "manifest.jsonl" ∧
    (Writer.Append w mfs e).files =
      storeKV mfs.files (getManifestPath w.basePath e.processedAt)
        ⟨((lookupKV mfs.files (getManifestPath w.basePath e.processedAt)).elim ""
              MFile.content) ++ jsonMarshalEntry e ++ "\n",
          ((lookupKV mfs.files (getManifestPath w.basePath e.processedAt)).elim ""
              MFile.content) ++ jsonMarshalEntry e ++ "\n"⟩ ∧
    dirOfPath (getManifestPath w.basePath e.processedAt) ∈ (Writer.Append w mfs e).dirs ∧
    noNL (jsonMarshalEntry e) := by
  refine ⟨getManifestPath_eq w.basePath e.processedAt hb, ?_, ?_,
    noNL_jsonMarshalEntry e⟩
  · unfold Writer.Append
    cases hl : lookupKV mfs.files (getManifestPath w.basePath e.processedAt) with
    | none => simp [hl]
    | some f => simp [hl]
  · unfold Writer.Append
    by_cases hd : dirOfPath (getManifestPath w.basePath e.processedAt) ∈ mfs.dirs
    · simp [hd]
    · simp [hd]

/-- Witness for C8: the concrete partition path for 2026-10-11 07:30 UTC. -/
theorem C8_witness :
    getManifestPath "manifests" ⟨2026, 10, 11, 7, 30, 0⟩ =
      "manifests/2026/10/11/07/manifest.jsonl" := by
  have h := (C8_manifest_append ⟨"manifests"⟩ ⟨[], []⟩
    ⟨"d", "n", "s", "t", 0, ⟨2026, 10, 11, 7, 30, 0⟩⟩ (by decide)).1
  rw [h]
  decide

end AtomicIngestor
